import Mathlib

/-!
Verification of the auditory-processing and vocal-tract repository.

The definitions below are shallow embeddings of the Go sources:
  - `audio` namespace: audio/mel.go and the AuditoryProc trial driver
    (mel filter construction, mel filter application, trial border wrap,
    gabor output indexing).
  - `trm` namespace: trm/FirFilter.go (FIR filter designer validation and
    the circular-buffer filter step).

Floating-point values in the sources are modelled as real numbers (ℝ) or,
where every quantity is rational, as ℚ.  Go `int` arithmetic is modelled
on ℤ, with Go's truncated division written `Int.tdiv`; a Go run-time
panic from division by zero is modelled as `Option.none`.
-/

namespace audio

/-- Go integer division as it appears in mel.go.  Division by zero is a
run-time panic in Go; the panic is modelled as `none`.  On a nonzero
divisor Go's `/` truncates toward zero, which is `Int.tdiv`. -/
def goDiv (a b : ℤ) : Option ℤ :=
  if b = 0 then none else some (a.tdiv b)

/-- Iteration count of the Go loop `for bin := lo; bin <= hi; bin++`. -/
def loopCount (lo hi : ℤ) : ℕ :=
  if lo ≤ hi then (hi - lo).toNat + 1 else 0

/-- Rising half of the weight loop in `Mel.InitFilters` (audio/mel.go lines
98-101): starting at `bin = mnbin`, each iteration computes the Go integer
division `(bin - mnbin) / (pkbin - mnbin)` and appends it to the filter row.
The first argument of the recursion is the number of remaining iterations,
the second is the current `bin`. -/
def risingLoop (mnbin pkbin : ℤ) : ℕ → ℤ → Option (List ℤ)
  | 0, _ => some []
  | n + 1, bin =>
    match goDiv (bin - mnbin) (pkbin - mnbin) with
    | none => none
    | some w =>
      match risingLoop mnbin pkbin n (bin + 1) with
      | none => none
      | some rest => some (w :: rest)

/-- Falling half of the weight loop in `Mel.InitFilters` (audio/mel.go lines
102-105): each iteration computes the Go integer division
`(mxbin - bin) / (mxbin - pkbin)`. -/
def fallingLoop (pkbin mxbin : ℤ) : ℕ → ℤ → Option (List ℤ)
  | 0, _ => some []
  | n + 1, bin =>
    match goDiv (mxbin - bin) (mxbin - pkbin) with
    | none => none
    | some w =>
      match fallingLoop pkbin mxbin n (bin + 1) with
      | none => none
      | some rest => some (w :: rest)

/-- One filter row of `Mel.InitFilters` (audio/mel.go lines 89-106): the
rising loop runs `bin` from `mnbin` up to and including `pkbin`, then the
falling loop continues from the next `bin` up to and including `mxbin`.
The result is the list of weights written into `MelFilters` for this
filter, or `none` when a division by zero panics. -/
def melFilterRow (mnbin pkbin mxbin : ℤ) : Option (List ℤ) :=
  match risingLoop mnbin pkbin (loopCount mnbin pkbin) mnbin with
  | none => none
  | some r =>
    match fallingLoop pkbin mxbin
        (loopCount (mnbin + ((loopCount mnbin pkbin : ℕ) : ℤ)) mxbin)
        (mnbin + ((loopCount mnbin pkbin : ℕ) : ℤ)) with
    | none => none
    | some f => some (r ++ f)

/-- Modelled from the spec: the triangular per-bin weight the spec describes
for filter bins, `(b - minBin)/(peakBin - minBin)` on the rising side and
`(maxBin - b)/(maxBin - peakBin)` on the falling side, with exact rational
division. -/
def melTriangleSpec (mnbin pkbin mxbin b : ℤ) : ℚ :=
  if b ≤ pkbin then ((b : ℚ) - (mnbin : ℚ)) / ((pkbin : ℚ) - (mnbin : ℚ))
  else ((mxbin : ℚ) - (b : ℚ)) / ((mxbin : ℚ) - (pkbin : ℚ))

/-- The weighted spectral sum of `Mel.MelFilterDft` (audio/mel.go lines
136-142): for one filter, `bin` runs from `minBin` inclusive to `maxBin`
exclusive; offset `fi` into the filter row starts at 0, and the weight at
`fi` multiplies the power value at `bin = minBin + fi`. -/
noncomputable def melFilterSum (w power : ℕ → ℝ) (minBin maxBin : ℕ) : ℝ :=
  ∑ fi ∈ Finset.range (maxBin - minBin), w fi * power (minBin + fi)

/-- One output value of `Mel.MelFilterDft` (audio/mel.go lines 130-162):
add `LogOff` to the weighted sum; if the result is exactly zero use
`LogMin`, otherwise take the natural log; if renormalization is on,
subtract `RenormMin`; clamp below at 0; multiply by `RenormScale`; clamp
above at 1. -/
noncomputable def melFilterDftVal (w power : ℕ → ℝ) (minBin maxBin : ℕ)
    (logOff logMin : ℝ) (renormOn : Bool) (renormMin renormScale : ℝ) : ℝ :=
  let sum := melFilterSum w power minBin maxBin + logOff
  let val0 := if sum = 0 then logMin else Real.log sum
  let val1 := if renormOn then val0 - renormMin else val0
  let val2 := if val1 < 0 then 0 else val1
  let val3 := val2 * renormScale
  if val3 > 1 then 1 else val3

/-- Mel-scale conversion from audio/mel.go: `1127 * ln(1 + freq/700)`,
modelled over the reals. -/
noncomputable def FreqToMel (freq : ℝ) : ℝ :=
  1127 * Real.log (1 + freq / 700)

/-- Inverse mel-scale conversion from audio/mel.go:
`700 * (exp(mel/1127) - 1)`, modelled over the reals. -/
noncomputable def MelToFreq (mel : ℝ) : ℝ :=
  700 * (Real.exp (mel / 1127) - 1)

/-- The time-tap (equally, freq-tap) write loop of `AuditoryProc.GaborFilter`
(part_000 lines 351-362), reduced to the indices it writes: the enclosing
`for` loop performs `n` iterations (the number of stride positions below the
loop bound, computed by `gaborIterCount`), and in each iteration the shape
guard `tIdx > dim` logs and breaks when the output index strictly exceeds
the allocated extent `dim`; otherwise the tap is written at index `tIdx`. -/
def gaborTapWrites (dim : ℕ) : ℕ → ℕ → List ℕ
  | 0, _ => []
  | n + 1, tIdx =>
    if dim < tIdx then [] else tIdx :: gaborTapWrites dim n (tIdx + 1)

/-- Iteration count of the Go loop `for s := tMin; s < tMax; s += space`
(the stride bookkeeping of the gabor tap loops). -/
def gaborIterCount (tMin tMax space : ℕ) : ℕ :=
  if 0 < space then (tMax - tMin + space - 1) / space else 0

/-- The list of output indices written by one gabor tap loop. -/
def gaborTapIdxs (tMin tMax space dim : ℕ) : List ℕ :=
  gaborTapWrites dim (gaborIterCount tMin tMax space) 0

/-- Configuration fields of `AuditoryProc` (part_000 lines 46-71 and its
`Input`/`Mel` sub-structures).  These fields are read but never written by
`ProcessTrial` and its callees, so they are separated from the mutable
state.  `soundLen` is `len(SoundFull.Values)`. -/
structure APConfig where
  melOn : Bool
  mfccOn : Bool
  nFilters : ℕ
  borderSteps : ℕ
  trialSteps : ℕ
  totalSteps : ℕ
  channels : ℕ
  winSamples : ℕ
  dftSize : ℕ
  melNFiltersEff : ℕ
  stepSamples : ℤ
  trialSamples : ℤ
  soundLen : ℤ

/-- Mutable fields of `AuditoryProc` touched by `ProcessTrial`: the input
cursor, the trial bounds, the first-step flag, the number of rows added to
the output table, and the two trial tensors, modelled as functions of
(filter, step, channel).  The gabor output tensors and the data table's
cells are outside this fragment: `FilterTrial` and `OutputToTable` write
only those. -/
structure APState where
  inputPos : ℤ
  trialStartPos : ℤ
  trialEndPos : ℤ
  firstStep : Bool
  dataRows : ℕ
  melTrialOut : ℕ → ℕ → ℕ → ℝ
  mfccTrialOut : ℕ → ℕ → ℕ → ℝ

/-- `AuditoryProc.NeedsInit` (part_000 lines 162-168). -/
def needsInit (cfg : APConfig) : Bool :=
  (cfg.dftSize != cfg.winSamples) || (cfg.melNFiltersEff != cfg.nFilters + 2)

/-- `AuditoryProc.InputStepsLeft` (part_000 lines 218-221): remaining
samples divided by the step size with Go integer division. -/
def inputStepsLeft (cfg : APConfig) (st : APState) : ℤ :=
  (cfg.soundLen - st.inputPos).tdiv cfg.stepSamples

/-- `Mel.CopyStepFromStep` (audio/mel.go lines 226-239): when the mel bank
is on, copy every filter's value at step `fmStep` of channel `ch` into step
`toStep` of the same channel, in the mel trial tensor and, when the
cepstrum is on, in the mfcc trial tensor. -/
def copyStepFromStep (cfg : APConfig) (toStep fmStep ch : ℕ) (st : APState) : APState :=
  if cfg.melOn then
    { st with
      melTrialOut := fun i s c =>
        if i < cfg.nFilters ∧ s = toStep ∧ c = ch then st.melTrialOut i fmStep c
        else st.melTrialOut i s c,
      mfccTrialOut :=
        if cfg.mfccOn then fun i s c =>
          if i < cfg.nFilters ∧ s = toStep ∧ c = ch then st.mfccTrialOut i fmStep c
          else st.mfccTrialOut i s c
        else st.mfccTrialOut }
  else st

/-- `AuditoryProc.ProcessStep` (part_000 lines 315-321): extract the window
at `InputPos`, filter it into step `step` of channel `ch` of the trial
tensors, advance `InputPos` by `StepSamples`, clear `FirstStep`.  The
per-step filter outputs are the oracle parameters `melVal`/`mfccVal`,
functions of (filter, input position, channel): the window extraction, DFT
and power-spectrum code they stand for lives outside this repository
fragment and is deterministic in those arguments. -/
def processStep (melVal mfccVal : ℕ → ℤ → ℕ → ℝ) (cfg : APConfig)
    (ch step : ℕ) (st : APState) : APState :=
  if cfg.melOn then
    { st with
      melTrialOut := fun i s c =>
        if i < cfg.nFilters ∧ s = step ∧ c = ch then melVal i st.inputPos c
        else st.melTrialOut i s c,
      mfccTrialOut :=
        if cfg.mfccOn then fun i s c =>
          if i < cfg.nFilters ∧ s = step ∧ c = ch then mfccVal i st.inputPos c
          else st.mfccTrialOut i s c
        else st.mfccTrialOut,
      inputPos := st.inputPos + cfg.stepSamples,
      firstStep := false }
  else
    { st with inputPos := st.inputPos + cfg.stepSamples, firstStep := false }

/-- The copy loop of `AuditoryProc.WrapBorder` (part_000 lines 299-301):
`wrapLoop n` performs iterations `s = 0 .. n-1` in increasing order, each
copying step `srcSt + s` into step `s`. -/
def wrapLoop (cfg : APConfig) (ch srcSt : ℕ) : ℕ → APState → APState
  | 0, st => st
  | n + 1, st => copyStepFromStep cfg n (srcSt + n) ch (wrapLoop cfg ch srcSt n st)

/-- `AuditoryProc.WrapBorder` (part_000 lines 293-303): a no-op for zero
border, otherwise copy the trailing `2*BorderSteps` steps into the leading
`2*BorderSteps` slots. -/
def wrapBorder (cfg : APConfig) (ch : ℕ) (st : APState) : APState :=
  if cfg.borderSteps = 0 then st
  else wrapLoop cfg ch (cfg.totalSteps - 2 * cfg.borderSteps) (2 * cfg.borderSteps) st

/-- The step loop of `ProcessTrial`: `stepLoop start n` runs
`ProcessStep ch start`, `ProcessStep ch (start+1)`, ..., `n` iterations. -/
def stepLoop (melVal mfccVal : ℕ → ℤ → ℕ → ℝ) (cfg : APConfig) (ch : ℕ) :
    ℕ → ℕ → APState → APState
  | _, 0, st => st
  | start, n + 1, st =>
    stepLoop melVal mfccVal cfg ch (start + 1) n
      (processStep melVal mfccVal cfg ch start st)

/-- Per-channel processing in the wrap branch of `ProcessTrial` (part_000
lines 254-262): reset `InputPos` to the common start, wrap the border, then
freshly compute steps `2*BorderSteps .. TotalSteps-1`. -/
def processChannelWrap (melVal mfccVal : ℕ → ℤ → ℕ → ℝ) (cfg : APConfig)
    (startPos : ℤ) (st : APState) (ch : ℕ) : APState :=
  stepLoop melVal mfccVal cfg ch (2 * cfg.borderSteps)
    (cfg.totalSteps - 2 * cfg.borderSteps)
    (wrapBorder cfg ch { st with inputPos := startPos })

/-- Per-channel processing in the first-trial branch of `ProcessTrial`
(part_000 lines 241-247): all `TotalSteps` steps are computed fresh. -/
def processChannelFirst (melVal mfccVal : ℕ → ℤ → ℕ → ℝ) (cfg : APConfig)
    (startPos : ℤ) (st : APState) (ch : ℕ) : APState :=
  stepLoop melVal mfccVal cfg ch 0 cfg.totalSteps { st with inputPos := startPos }

/-- The channel loop `for ch := 0; ch < channels; ch++` of `ProcessTrial`:
`chanLoop f m` applies `f` at channels `0 .. m-1` in increasing order. -/
def chanLoop (f : APState → ℕ → APState) : ℕ → APState → APState
  | 0, st => st
  | n + 1, st => f (chanLoop f n st) n

/-- `AuditoryProc.ProcessTrial` (part_000 lines 224-265) over the modelled
fragment: reinitialize if needed (`initFn` stands for `Initialize`, reached
only when `NeedsInit` holds), add a table row, fail (non-fatally, returning
false) when less than one step of input remains, otherwise run the
first-trial branch from position 0 or the border-wrapping branch from a
later position, per channel. -/
def processTrial (melVal mfccVal : ℕ → ℤ → ℕ → ℝ)
    (initFn : APConfig → APState → APConfig × APState)
    (cfg : APConfig) (st : APState) : Bool × APConfig × APState :=
  let p := if needsInit cfg then initFn cfg st else (cfg, st)
  let cfg1 := p.1
  let st1 := { p.2 with dataRows := p.2.dataRows + 1 }
  if inputStepsLeft cfg1 st1 < 1 then (false, cfg1, st1)
  else
    let startPos := st1.inputPos
    if st1.inputPos = 0 then
      let border : ℤ := 2 * (cfg1.borderSteps : ℤ)
      let st2 := { st1 with
        trialStartPos := st1.inputPos,
        trialEndPos := st1.inputPos + cfg1.trialSamples + 2 * border * cfg1.stepSamples }
      (true, cfg1,
        chanLoop (fun st0 ch => processChannelFirst melVal mfccVal cfg1 startPos st0 ch)
          cfg1.channels st2)
    else
      let st2 := { st1 with
        trialStartPos := st1.inputPos - cfg1.stepSamples * (cfg1.borderSteps : ℤ),
        trialEndPos := st1.inputPos - cfg1.stepSamples * (cfg1.borderSteps : ℤ) +
          cfg1.trialSamples }
      (true, cfg1,
        chanLoop (fun st0 ch => processChannelWrap melVal mfccVal cfg1 startPos st0 ch)
          cfg1.channels st2)

/-- A concrete configuration exercising the wrap branch: one filter, one
channel, border 1, trial steps 2, step size 80 samples, a 400-sample sound
with the cursor at 320 (second trial, one step of input left). -/
def cfgC2 : APConfig :=
  { melOn := true, mfccOn := false, nFilters := 1, borderSteps := 1, trialSteps := 2,
    totalSteps := 4, channels := 1, winSamples := 400, dftSize := 400,
    melNFiltersEff := 3, stepSamples := 80, trialSamples := 160, soundLen := 400 }

/-- A concrete analyzer state for the wrap-branch configuration, with a
distinguishable mel trial tensor. -/
def stC2 : APState :=
  { inputPos := 320, trialStartPos := 0, trialEndPos := 0, firstStep := false,
    dataRows := 0,
    melTrialOut := fun i s c => (i : ℝ) + 10 * (s : ℝ) + 100 * (c : ℝ),
    mfccTrialOut := fun _ _ _ => 0 }

/-- A per-step oracle that records the input position it was computed at. -/
def melValC2 : ℕ → ℤ → ℕ → ℝ := fun _ p _ => (p : ℝ)

/-- The all-zero per-step oracle. -/
def zeroVal : ℕ → ℤ → ℕ → ℝ := fun _ _ _ => 0

/-- A reinitialization stand-in (never reached under `NeedsInit = false`). -/
def idInit : APConfig → APState → APConfig × APState := fun cfg st => (cfg, st)

/-- A drained configuration: same geometry as `cfgC2` but the sound is only
300 samples long. -/
def cfgC3 : APConfig := { cfgC2 with soundLen := 300 }

/-- A state whose cursor sits at the end of the 300-sample sound: zero
steps of input remain. -/
def stC3 : APState :=
  { inputPos := 300, trialStartPos := 0, trialEndPos := 0, firstStep := false,
    dataRows := 5,
    melTrialOut := fun i s c => (i : ℝ) + 10 * (s : ℝ) + 100 * (c : ℝ),
    mfccTrialOut := fun i s c => (i : ℝ) * (s : ℝ) * (c : ℝ) }

end audio

namespace trm

/-- Outcome of the validation prelude of `FirFilter.MaximallyFlat`
(trm/FirFilter.go lines 82-112).  The Go code returns 0 with `*np = 0` on
each invalid input; the exception throws of the C++ original are commented
out, so the four outcomes carry no error signal distinguishable by the
caller. -/
inductive MFCheck where
  | betaOutOfRange
  | gammaOutOfRange
  | gammaTooSmall
  | valid
deriving DecidableEq

/-- The validation prelude of `FirFilter.MaximallyFlat`: beta must lie
strictly between 0 and 0.5; gamma must lie strictly between 0 and
`min(2*beta, 1 - 2*beta)`; and `int(1/(4*gamma^2))` must not exceed 160.
Inputs are exact rationals standing for the float32 arguments. -/
def maximallyFlatCheck (beta gamma : ℚ) : MFCheck :=
  if beta ≤ 0 ∨ 1 / 2 ≤ beta then .betaOutOfRange
  else
    let betaMin := if 2 * beta < 1 - 2 * beta then 2 * beta else 1 - 2 * beta
    if gamma ≤ 0 ∨ betaMin ≤ gamma then .gammaOutOfRange
    else if 160 < (1 / (4 * gamma * gamma)).floor then .gammaTooSmall
    else .valid

/-- The tap count computed by `FirFilter.Init` (trm/FirFilter.go lines
43-69): `nTaps = 2*nCoefficients - 1`, where `nCoefficients` is 0 whenever
`MaximallyFlat` took an early validation return (it sets `*np = 0` first and
no error is raised), and otherwise the value produced by the numeric body
(left as the parameter `validNp`, unused on the invalid paths the claim is
about). `Init` performs no check of its own and completes normally. -/
def firInitNTaps (beta gamma : ℚ) (validNp : ℕ) : ℤ :=
  let np : ℕ :=
    match maximallyFlatCheck beta gamma with
    | .valid => validNp
    | _ => 0
  2 * (np : ℤ) - 1

/-- `Increment` from trm/FirFilter.go lines 205-213: adds one to the
circular-buffer pointer and wraps to 0 at `modulus`. -/
def Increment (ptr modulus : ℤ) : ℤ :=
  if modulus ≤ ptr + 1 then 0 else ptr + 1

/-- `Decrement` from trm/FirFilter.go lines 215-223: subtracts one from the
circular-buffer pointer and wraps to `modulus - 1` below 0. -/
def Decrement (ptr modulus : ℤ) : ℤ :=
  if ptr - 1 < 0 then modulus - 1 else ptr - 1

/-- FIR filter state (trm/FirFilter.go lines 36-41).  The Go slices `Data`
and `Coef` are modelled as integer-indexed functions; the claims quantify
over the in-range indices `0 .. NTaps-1`. -/
structure FirFilter where
  Ptr : ℤ
  NTaps : ℤ
  Data : ℤ → ℝ
  Coef : ℤ → ℝ

/-- The tap-summing loop of `FirFilter.Filter` (trm/FirFilter.go lines
187-190): `NTaps` iterations, each accumulating `Data[Ptr] * Coef[i]` and
advancing the data pointer with `Increment`; the result is the accumulated
output together with the final pointer value. -/
noncomputable def firLoop (data coef : ℤ → ℝ) (nTaps : ℤ) :
    ℕ → ℤ → ℕ → ℝ → ℝ × ℤ
  | 0, p, _, acc => (acc, p)
  | n + 1, p, i, acc =>
    firLoop data coef nTaps n (Increment p nTaps) (i + 1) (acc + data p * coef (i : ℤ))

/-- `FirFilter.Filter` (trm/FirFilter.go lines 179-203): both branches
store the input sample at `Data[Ptr]`; the `needOutput` branch then runs
the tap-summing loop (whose `NTaps` increments return the pointer to its
starting value) and finally decrements the pointer; the other branch only
decrements the pointer and returns 0. -/
noncomputable def FirFilter.Filter (ff : FirFilter) (input : ℝ)
    (needOutput : Bool) : ℝ × FirFilter :=
  if needOutput then
    let data := fun j => if j = ff.Ptr then input else ff.Data j
    let r := firLoop data ff.Coef ff.NTaps ff.NTaps.toNat ff.Ptr 0 0
    (r.1, { ff with Data := data, Ptr := Decrement r.2 ff.NTaps })
  else
    let data := fun j => if j = ff.Ptr then input else ff.Data j
    (0, { ff with Data := data, Ptr := Decrement ff.Ptr ff.NTaps })

end trm

namespace audio

/-- C1: the claim states the per-bin weight rises linearly from 0 at minBin
to 1 at peakBin and falls linearly back to 0 at maxBin, with the rising
weight `(b - minBin)/(peakBin - minBin)`.  The code computes that quotient
with Go integer division on `int` operands, so for the filter with
minBin = 0, peakBin = 2, maxBin = 4 the produced row is [0, 0, 1, 0, 0]:
the weight at bin 1 is 0, while the linear triangle of the claim gives 1/2
there.  The code's filter is 1 at the peak bin and 0 everywhere else. -/
theorem melFilterRow_integerDivision_eval :
    melFilterRow 0 2 4 = some [0, 0, 1, 0, 0] ∧ melTriangleSpec 0 2 4 1 = 1 / 2 := by
  constructor
  · decide
  · norm_num [melTriangleSpec]

/-- C5 counterexample: `InitFilters` contains no degeneracy check.  With a
zero rising divisor (minBin = peakBin = 0, maxBin = 2) the first loop body
executes the integer division with the zero divisor, a run-time panic
(modelled as `none`) rather than a rejected configuration; with a zero
falling divisor only (minBin = 0, peakBin = maxBin = 2) the falling loop
body never runs and initialization completes silently with no error. -/
theorem initFilters_degenerate_counterexample :
    melFilterRow 0 0 2 = none ∧ melFilterRow 0 2 2 = some [0, 0, 1] := by
  decide

/-- If the rising divisor is nonzero the rising loop never panics. -/
theorem risingLoop_isSome (mnbin pkbin : ℤ) (h : pkbin - mnbin ≠ 0) :
    ∀ n bin, ∃ l, risingLoop mnbin pkbin n bin = some l := by
  intro n
  induction n with
  | zero => intro bin; exact ⟨[], rfl⟩
  | succ n ih =>
    intro bin
    obtain ⟨l, hl⟩ := ih (bin + 1)
    exact ⟨(bin - mnbin).tdiv (pkbin - mnbin) :: l,
      by simp [risingLoop, goDiv, h, hl]⟩

/-- If the falling divisor is nonzero the falling loop never panics. -/
theorem fallingLoop_isSome (pkbin mxbin : ℤ) (h : mxbin - pkbin ≠ 0) :
    ∀ n bin, ∃ l, fallingLoop pkbin mxbin n bin = some l := by
  intro n
  induction n with
  | zero => intro bin; exact ⟨[], rfl⟩
  | succ n ih =>
    intro bin
    obtain ⟨l, hl⟩ := ih (bin + 1)
    exact ⟨(mxbin - bin).tdiv (mxbin - pkbin) :: l,
      by simp [fallingLoop, goDiv, h, hl]⟩

/-- C5 amended: `InitFilters` performs no configuration check on degenerate
filters.  For monotone bin triples, the weight computation panics with a
division by zero exactly when the rising divisor `peakBin - minBin` is
zero; a zero falling divisor `maxBin - peakBin` is silently harmless
because the falling loop body never executes for it.  In no case is a
configuration error raised. -/
theorem initFilters_degenerate_amended (mnbin pkbin mxbin : ℤ)
    (h1 : mnbin ≤ pkbin) (h2 : pkbin ≤ mxbin) :
    melFilterRow mnbin pkbin mxbin = none ↔ pkbin = mnbin := by
  have hCnt : loopCount mnbin pkbin = (pkbin - mnbin).toNat + 1 := by
    rw [loopCount, if_pos h1]
  have hbinAfter : mnbin + ((loopCount mnbin pkbin : ℕ) : ℤ) = pkbin + 1 := by
    rw [hCnt]; omega
  constructor
  · intro hnone
    by_contra hne
    have hd : pkbin - mnbin ≠ 0 := fun h => hne (by omega)
    obtain ⟨r, hr⟩ := risingLoop_isSome mnbin pkbin hd (loopCount mnbin pkbin) mnbin
    by_cases hfall : pkbin + 1 ≤ mxbin
    · have hd2 : mxbin - pkbin ≠ 0 := by omega
      obtain ⟨f, hf⟩ := fallingLoop_isSome pkbin mxbin hd2
        (loopCount (mnbin + ((loopCount mnbin pkbin : ℕ) : ℤ)) mxbin)
        (mnbin + ((loopCount mnbin pkbin : ℕ) : ℤ))
      rw [melFilterRow, hr, hf] at hnone
      simp at hnone
    · have hc2 : loopCount (mnbin + ((loopCount mnbin pkbin : ℕ) : ℤ)) mxbin = 0 := by
        rw [hbinAfter, loopCount, if_neg (by omega)]
      rw [melFilterRow, hr, hc2] at hnone
      simp [fallingLoop] at hnone
  · intro heq
    subst heq
    have hc1 : loopCount pkbin pkbin = 1 := by
      rw [loopCount, if_pos le_rfl]; omega
    rw [melFilterRow, hc1]
    simp [risingLoop, goDiv]

/-- Concrete instance of the amended C5 statement at the non-degenerate
triple (0, 1, 2): the row is produced without a panic. -/
theorem initFilters_degenerate_amended_witness :
    melFilterRow 0 1 2 = none ↔ (1 : ℤ) = 0 :=
  initFilters_degenerate_amended 0 1 2 (by decide) (by decide)

/-- C4: with renormalization enabled and the stored scale consistent with
its documented value `1/(RenormMax - RenormMin)` (set by
`RenormSpec.Initialize`), the mel filter-bank value is the weighted
spectral sum, plus `LogOff`, logged with the exact-zero floor at `LogMin`
(log of 0 is never taken), then `(x - RenormMin) * (1/(RenormMax -
RenormMin))` clamped into [0, 1]. -/
theorem melFilterDft_log_renorm_spec (w power : ℕ → ℝ) (minBin maxBin : ℕ)
    (logOff logMin renormMin renormMax renormScale : ℝ)
    (hscale : renormScale = 1 / (renormMax - renormMin))
    (hlt : renormMin < renormMax) :
    melFilterDftVal w power minBin maxBin logOff logMin true renormMin renormScale =
      min 1 (max 0
        (((if melFilterSum w power minBin maxBin + logOff = 0 then logMin
            else Real.log (melFilterSum w power minBin maxBin + logOff)) - renormMin) *
          (1 / (renormMax - renormMin)))) := by
  subst hscale
  have hpos : 0 < 1 / (renormMax - renormMin) := by
    apply one_div_pos.mpr
    linarith
  simp only [melFilterDftVal, if_true]
  generalize (if melFilterSum w power minBin maxBin + logOff = 0 then logMin
      else Real.log (melFilterSum w power minBin maxBin + logOff)) = v
  split_ifs with hneg hbig hbig
  · exfalso
    rw [zero_mul] at hbig
    linarith
  · rw [zero_mul]
    have hvneg : (v - renormMin) * (1 / (renormMax - renormMin)) < 0 :=
      mul_neg_of_neg_of_pos hneg hpos
    rw [max_eq_left hvneg.le, min_eq_right (by norm_num : (0 : ℝ) ≤ 1)]
  · have hnn : 0 ≤ (v - renormMin) * (1 / (renormMax - renormMin)) :=
      mul_nonneg (by linarith [not_lt.mp hneg]) hpos.le
    rw [max_eq_right hnn, min_eq_left hbig.le]
  · have hnn : 0 ≤ (v - renormMin) * (1 / (renormMax - renormMin)) :=
      mul_nonneg (by linarith [not_lt.mp hneg]) hpos.le
    rw [max_eq_right hnn, min_eq_right (not_lt.mp hbig)]

/-- The renormalized filter-bank formula evaluated at a concrete input:
zero weights and power, `LogOff = 1`, and the default renormalization
bounds RenormMin = -5, RenormMax = 9 with their documented scale 1/14. -/
theorem melFilterDft_log_renorm_spec_witness :
    melFilterDftVal (fun _ => 0) (fun _ => 0) 0 1 1 (-10) true (-5) (1 / 14) =
      min 1 (max 0
        (((if melFilterSum (fun _ => 0) (fun _ => 0) 0 1 + 1 = 0 then (-10 : ℝ)
            else Real.log (melFilterSum (fun _ => 0) (fun _ => 0) 0 1 + 1)) - (-5)) *
          (1 / (9 - (-5))))) :=
  melFilterDft_log_renorm_spec (fun _ => 0) (fun _ => 0) 0 1 1 (-10) (-5) 9 (1 / 14)
    (by norm_num) (by norm_num)

/-- C6 counterexample: with trial bound `tMax = 2`, stride 1 and an
allocated time extent of 1 (valid indices `{0}`), the loop writes the index
list [0, 1]: the guard `tIdx > dim` lets `tIdx = 1 = dim` through, so a
write lands one slot outside the allocated extent, refuting the claim that
no out-of-extent write ever occurs. -/
theorem gaborFilter_bound_counterexample :
    ¬ (∀ i ∈ gaborTapIdxs 0 2 1 1, i < 1) := by
  decide

/-- C6 amended: the shape guard of `GaborFilter` uses a strict comparison,
so the indices written by a tap loop are bounded by the allocated extent
itself rather than by extent - 1: an index exactly equal to the extent
passes the guard and is written one slot past the allocation, and only
indices strictly beyond the extent are logged and skipped (the break also
drops all remaining taps of that loop). -/
theorem gaborFilter_bound_amended (dim : ℕ) :
    ∀ (n tIdx0 : ℕ), ∀ i ∈ gaborTapWrites dim n tIdx0, i ≤ dim := by
  intro n
  induction n with
  | zero => intro tIdx0 i hi; simp [gaborTapWrites] at hi
  | succ n ih =>
    intro tIdx0 i hi
    rw [gaborTapWrites] at hi
    by_cases h : dim < tIdx0
    · rw [if_pos h] at hi
      simp at hi
    · rw [if_neg h] at hi
      rcases List.mem_cons.mp hi with h1 | h1
      · omega
      · exact ih (tIdx0 + 1) i h1

/-- The amended gabor bound evaluated at the counterexample's configuration:
index 1 is written with extent 1, and it is bounded by the extent itself. -/
theorem gaborFilter_bound_amended_witness :
    1 ∈ gaborTapWrites 1 2 0 ∧ (1 : ℕ) ≤ 1 :=
  ⟨by decide, gaborFilter_bound_amended 1 2 0 1 (by decide)⟩

/-- C7: the mel-scale conversion pair is a round-trip identity on the
frequency range [1, 20000] (exact in the real-valued model; the claim's
float32-epsilon allowance covers rounding of the concrete float32
implementation of the same formulas). -/
theorem melToFreq_freqToMel_roundtrip (f : ℝ) (hlo : 1 ≤ f) (_hhi : f ≤ 20000) :
    MelToFreq (FreqToMel f) = f := by
  unfold MelToFreq FreqToMel
  have hpos : (0 : ℝ) < 1 + f / 700 := by linarith
  rw [mul_div_cancel_left₀ _ (by norm_num : (1127 : ℝ) ≠ 0), Real.exp_log hpos]
  ring

/-- The round trip evaluated at the concrete frequency 1. -/
theorem melToFreq_freqToMel_roundtrip_witness :
    MelToFreq (FreqToMel 1) = 1 :=
  melToFreq_freqToMel_roundtrip 1 le_rfl (by norm_num)

/-- `copyStepFromStep` leaves `inputPos` unchanged. -/
theorem copyStepFromStep_inputPos (cfg : APConfig) (toStep fmStep ch : ℕ)
    (st : APState) :
    (copyStepFromStep cfg toStep fmStep ch st).inputPos = st.inputPos := by
  unfold copyStepFromStep
  split <;> rfl

/-- `wrapLoop` leaves `inputPos` unchanged. -/
theorem wrapLoop_inputPos (cfg : APConfig) (ch srcSt : ℕ) :
    ∀ (n : ℕ) (st : APState), (wrapLoop cfg ch srcSt n st).inputPos = st.inputPos := by
  intro n
  induction n with
  | zero => intro st; rfl
  | succ n ih =>
    intro st
    rw [wrapLoop, copyStepFromStep_inputPos, ih]

/-- Element-wise characterization of the border-copy loop: after `n`
iterations, step `s < n` of channel `ch` holds the value that step
`srcSt + s` held before the loop started, and every other cell is
untouched.  The sequential in-place copies read only source cells that no
earlier iteration has overwritten, because `srcSt + s ≥ s`. -/
theorem wrapLoop_melTrialOut (cfg : APConfig) (ch srcSt : ℕ)
    (hmel : cfg.melOn = true) :
    ∀ (n : ℕ) (st : APState) (i s c : ℕ),
      (wrapLoop cfg ch srcSt n st).melTrialOut i s c =
        if i < cfg.nFilters ∧ s < n ∧ c = ch then st.melTrialOut i (srcSt + s) c
        else st.melTrialOut i s c := by
  intro n
  induction n with
  | zero =>
    intro st i s c
    simp [wrapLoop]
  | succ n ih =>
    intro st i s c
    rw [wrapLoop]
    simp only [copyStepFromStep, hmel, if_true]
    by_cases h1 : i < cfg.nFilters ∧ s = n ∧ c = ch
    · rw [if_pos h1, ih]
      rw [if_neg (by omega : ¬(i < cfg.nFilters ∧ srcSt + n < n ∧ c = ch))]
      obtain ⟨hi, hs, hc⟩ := h1
      rw [if_pos ⟨hi, by omega, hc⟩, hs]
    · rw [if_neg h1, ih]
      by_cases h2 : i < cfg.nFilters ∧ s < n ∧ c = ch
      · rw [if_pos h2, if_pos ⟨h2.1, by omega, h2.2.2⟩]
      · rw [if_neg h2, if_neg ?hcond]
        case hcond =>
          rintro ⟨hi, hs, hc⟩
          rcases Nat.lt_succ_iff_lt_or_eq.mp hs with h | h
          · exact h2 ⟨hi, h, hc⟩
          · exact h1 ⟨hi, h, hc⟩

/-- `processStep` advances `inputPos` by one step size. -/
theorem processStep_inputPos (melVal mfccVal : ℕ → ℤ → ℕ → ℝ) (cfg : APConfig)
    (ch step : ℕ) (st : APState) :
    (processStep melVal mfccVal cfg ch step st).inputPos =
      st.inputPos + cfg.stepSamples := by
  unfold processStep
  split <;> rfl

/-- `processStep` writes the fresh per-step values (computed at the current
input position) into its step and channel of the mel trial tensor, leaving
every other cell untouched. -/
theorem processStep_melTrialOut (melVal mfccVal : ℕ → ℤ → ℕ → ℝ) (cfg : APConfig)
    (ch step : ℕ) (st : APState) (hmel : cfg.melOn = true) (i s c : ℕ) :
    (processStep melVal mfccVal cfg ch step st).melTrialOut i s c =
      if i < cfg.nFilters ∧ s = step ∧ c = ch then melVal i st.inputPos c
      else st.melTrialOut i s c := by
  simp only [processStep, hmel, if_true]

/-- Element-wise characterization of the fresh-step loop: `n` iterations
starting at step `start` write the per-step oracle value for steps
`start ≤ s < start + n`, computed at input position
`inputPos + (s - start) * stepSamples`, and leave every other cell
untouched. -/
theorem stepLoop_melTrialOut (melVal mfccVal : ℕ → ℤ → ℕ → ℝ) (cfg : APConfig)
    (ch : ℕ) (hmel : cfg.melOn = true) :
    ∀ (n start : ℕ) (st : APState) (i s c : ℕ),
      (stepLoop melVal mfccVal cfg ch start n st).melTrialOut i s c =
        if i < cfg.nFilters ∧ start ≤ s ∧ s < start + n ∧ c = ch then
          melVal i (st.inputPos + ((s - start : ℕ) : ℤ) * cfg.stepSamples) c
        else st.melTrialOut i s c := by
  intro n
  induction n with
  | zero =>
    intro start st i s c
    rw [stepLoop, if_neg (by omega : ¬(i < cfg.nFilters ∧ start ≤ s ∧ s < start + 0 ∧ c = ch))]
  | succ n ih =>
    intro start st i s c
    rw [stepLoop, ih (start + 1) _ i s c, processStep_inputPos,
      processStep_melTrialOut melVal mfccVal cfg ch start st hmel]
    by_cases hA : i < cfg.nFilters ∧ start + 1 ≤ s ∧ s < start + 1 + n ∧ c = ch
    · rw [if_pos hA, if_pos ⟨hA.1, by omega, by omega, hA.2.2.2⟩]
      have hcast : ((s - start : ℕ) : ℤ) = ((s - (start + 1) : ℕ) : ℤ) + 1 := by
        have := hA.2.1
        omega
      rw [hcast]
      ring_nf
    · rw [if_neg hA]
      by_cases hB : i < cfg.nFilters ∧ s = start ∧ c = ch
      · rw [if_pos hB, if_pos ⟨hB.1, by omega, by omega, hB.2.2⟩]
        have hcast : ((s - start : ℕ) : ℤ) = 0 := by
          have := hB.2.1
          omega
        rw [hcast, zero_mul, add_zero]
      · rw [if_neg hB]
        by_cases hC : i < cfg.nFilters ∧ start ≤ s ∧ s < start + (n + 1) ∧ c = ch
        · exfalso
          obtain ⟨hi, hs1, hs2, hc⟩ := hC
          by_cases hs : s = start
          · exact hB ⟨hi, hs, hc⟩
          · exact hA ⟨hi, by omega, by omega, hc⟩
        · rw [if_neg hC]

/-- Element-wise characterization of one channel's processing in the wrap
branch: for its channel, the leading `2*BorderSteps` steps receive the
values the trailing `2*BorderSteps` steps (starting at `TrialSteps =
TotalSteps - 2*BorderSteps`) held on entry, the remaining steps up to
`TotalSteps` receive fresh per-step values from the reset input position,
and every cell of other channels is untouched. -/
theorem processChannelWrap_melTrialOut (melVal mfccVal : ℕ → ℤ → ℕ → ℝ)
    (cfg : APConfig) (startPos : ℤ) (st : APState) (ch : ℕ)
    (hmel : cfg.melOn = true) (hB : 0 < cfg.borderSteps)
    (htot : cfg.totalSteps = 2 * cfg.borderSteps + cfg.trialSteps) (i s c : ℕ) :
    (processChannelWrap melVal mfccVal cfg startPos st ch).melTrialOut i s c =
      if i < cfg.nFilters ∧ c = ch then
        (if s < 2 * cfg.borderSteps then st.melTrialOut i (cfg.trialSteps + s) c
         else if s < cfg.totalSteps then
            melVal i (startPos + ((s - 2 * cfg.borderSteps : ℕ) : ℤ) * cfg.stepSamples) c
         else st.melTrialOut i s c)
      else st.melTrialOut i s c := by
  have hsrc : cfg.totalSteps - 2 * cfg.borderSteps = cfg.trialSteps := by omega
  unfold processChannelWrap wrapBorder
  rw [if_neg (by omega : ¬ cfg.borderSteps = 0), hsrc,
    stepLoop_melTrialOut melVal mfccVal cfg ch hmel _ _ _ i s c,
    wrapLoop_inputPos]
  by_cases hic : i < cfg.nFilters ∧ c = ch
  · rw [if_pos hic]
    by_cases hs1 : s < 2 * cfg.borderSteps
    · rw [if_neg (by omega : ¬(i < cfg.nFilters ∧ 2 * cfg.borderSteps ≤ s ∧
          s < 2 * cfg.borderSteps + cfg.trialSteps ∧ c = ch)),
        wrapLoop_melTrialOut cfg ch cfg.trialSteps hmel,
        if_pos ⟨hic.1, hs1, hic.2⟩, if_pos hs1]
    · rw [if_neg hs1]
      by_cases hs2 : s < cfg.totalSteps
      · rw [if_pos ⟨hic.1, by omega, by omega, hic.2⟩, if_pos hs2]
      · rw [if_neg hs2,
          if_neg (by omega : ¬(i < cfg.nFilters ∧ 2 * cfg.borderSteps ≤ s ∧
            s < 2 * cfg.borderSteps + cfg.trialSteps ∧ c = ch)),
          wrapLoop_melTrialOut cfg ch cfg.trialSteps hmel,
          if_neg (by omega : ¬(i < cfg.nFilters ∧ s < 2 * cfg.borderSteps ∧ c = ch))]
  · rw [if_neg hic,
      if_neg (fun h => hic ⟨h.1, h.2.2.2⟩),
      wrapLoop_melTrialOut cfg ch cfg.trialSteps hmel,
      if_neg (fun h => hic ⟨h.1, h.2.2⟩)]

/-- Element-wise characterization of the channel loop in the wrap branch:
channels `c < m` each carry their own border copy and fresh steps, sourced
from the state at loop entry (channels are disjoint: processing one channel
reads and writes only that channel's cells). -/
theorem chanLoop_wrap_melTrialOut (melVal mfccVal : ℕ → ℤ → ℕ → ℝ)
    (cfg : APConfig) (startPos : ℤ)
    (hmel : cfg.melOn = true) (hB : 0 < cfg.borderSteps)
    (htot : cfg.totalSteps = 2 * cfg.borderSteps + cfg.trialSteps) :
    ∀ (m : ℕ) (st : APState) (i s c : ℕ),
      (chanLoop (fun st0 ch => processChannelWrap melVal mfccVal cfg startPos st0 ch)
          m st).melTrialOut i s c =
        if i < cfg.nFilters ∧ c < m then
          (if s < 2 * cfg.borderSteps then st.melTrialOut i (cfg.trialSteps + s) c
           else if s < cfg.totalSteps then
              melVal i (startPos + ((s - 2 * cfg.borderSteps : ℕ) : ℤ) * cfg.stepSamples) c
           else st.melTrialOut i s c)
        else st.melTrialOut i s c := by
  intro m
  induction m with
  | zero =>
    intro st i s c
    rw [chanLoop, if_neg (by omega : ¬(i < cfg.nFilters ∧ c < 0))]
  | succ m ih =>
    intro st i s c
    rw [chanLoop,
      processChannelWrap_melTrialOut melVal mfccVal cfg startPos _ m hmel hB htot i s c]
    by_cases hic : i < cfg.nFilters ∧ c = m
    · obtain ⟨hi, rfl⟩ := hic
      rw [if_pos (show i < cfg.nFilters ∧ c = c from ⟨hi, rfl⟩)]
      by_cases hs1 : s < 2 * cfg.borderSteps
      · rw [if_pos hs1, ih st i (cfg.trialSteps + s) c,
          if_neg ((by rintro ⟨_, h⟩; omega) : ¬(i < cfg.nFilters ∧ c < c)),
          if_pos (show i < cfg.nFilters ∧ c < c + 1 from ⟨hi, by omega⟩), if_pos hs1]
      · rw [if_neg hs1]
        by_cases hs2 : s < cfg.totalSteps
        · rw [if_pos hs2,
            if_pos (show i < cfg.nFilters ∧ c < c + 1 from ⟨hi, by omega⟩),
            if_neg hs1, if_pos hs2]
        · rw [if_neg hs2, ih st i s c,
            if_neg ((by rintro ⟨_, h⟩; omega) : ¬(i < cfg.nFilters ∧ c < c)),
            if_pos (show i < cfg.nFilters ∧ c < c + 1 from ⟨hi, by omega⟩),
            if_neg hs1, if_neg hs2]
    · rw [if_neg hic, ih st i s c]
      by_cases h2 : i < cfg.nFilters ∧ c < m
      · rw [if_pos h2,
          if_pos (show i < cfg.nFilters ∧ c < m + 1 from ⟨h2.1, by omega⟩)]
      · rw [if_neg h2, if_neg ?hcond]
        case hcond =>
          rintro ⟨hi2, hc2⟩
          by_cases hcm : c = m
          · exact hic ⟨hi2, hcm⟩
          · exact h2 ⟨hi2, by omega⟩

/-- C3: in an initialized analyzer state (`NeedsInit` false) with fewer
than one full step of unconsumed samples, `ProcessTrial` returns false (a
non-fatal, retryable failure after logging) and leaves the mel and mfcc
trial tensors and the input cursor unchanged; only the table row counter
advances (`AddRows` runs before the check). -/
theorem processTrial_insufficientInput_spec (melVal mfccVal : ℕ → ℤ → ℕ → ℝ)
    (initFn : APConfig → APState → APConfig × APState)
    (cfg : APConfig) (st : APState)
    (hinit : needsInit cfg = false)
    (hleft : inputStepsLeft cfg st < 1) :
    (processTrial melVal mfccVal initFn cfg st).1 = false ∧
    (processTrial melVal mfccVal initFn cfg st).2.2.melTrialOut = st.melTrialOut ∧
    (processTrial melVal mfccVal initFn cfg st).2.2.mfccTrialOut = st.mfccTrialOut ∧
    (processTrial melVal mfccVal initFn cfg st).2.2.inputPos = st.inputPos := by
  have h2 : inputStepsLeft cfg { st with dataRows := st.dataRows + 1 } < 1 := hleft
  simp only [processTrial, hinit, Bool.false_eq_true, if_false, if_pos h2]
  exact ⟨trivial, trivial, trivial, trivial⟩

/-- C2: for a trial after the first (`InputPos ≠ 0`) with input available,
a positive border and consistent step geometry, `ProcessTrial` succeeds
and, for every mel filter and channel: each leading border step `s <
2*BorderSteps` of the trial tensor ends up holding exactly the value that
trailing step `TotalSteps - 2*BorderSteps + s` held before the call (the
border is copied from the previous trial before any new step is computed,
and fresh computation never overwrites it), and each remaining step
`2*BorderSteps + k` holds the freshly computed value for input position
`InputPos + k * StepSamples`. -/
theorem processTrial_wrapBorder_spec (melVal mfccVal : ℕ → ℤ → ℕ → ℝ)
    (initFn : APConfig → APState → APConfig × APState)
    (cfg : APConfig) (st : APState)
    (hmel : cfg.melOn = true)
    (hinit : needsInit cfg = false)
    (hpos : st.inputPos ≠ 0)
    (hleft : 1 ≤ inputStepsLeft cfg st)
    (hB : 0 < cfg.borderSteps)
    (htot : cfg.totalSteps = 2 * cfg.borderSteps + cfg.trialSteps) :
    (processTrial melVal mfccVal initFn cfg st).1 = true ∧
    ∀ i, i < cfg.nFilters → ∀ c, c < cfg.channels →
      (∀ s, s < 2 * cfg.borderSteps →
        (processTrial melVal mfccVal initFn cfg st).2.2.melTrialOut i s c =
          st.melTrialOut i (cfg.trialSteps + s) c) ∧
      (∀ k, k < cfg.trialSteps →
        (processTrial melVal mfccVal initFn cfg st).2.2.melTrialOut
            i (2 * cfg.borderSteps + k) c =
          melVal i (st.inputPos + (k : ℤ) * cfg.stepSamples) c) := by
  have h2 : ¬ inputStepsLeft cfg { st with dataRows := st.dataRows + 1 } < 1 :=
    not_lt.mpr hleft
  have h3 : ¬ (({ st with dataRows := st.dataRows + 1 } : APState).inputPos = 0) := hpos
  have hkey : processTrial melVal mfccVal initFn cfg st =
      (true, cfg,
        chanLoop (fun st0 ch => processChannelWrap melVal mfccVal cfg st.inputPos st0 ch)
          cfg.channels
          { st with
            dataRows := st.dataRows + 1,
            trialStartPos := st.inputPos - cfg.stepSamples * (cfg.borderSteps : ℤ),
            trialEndPos := st.inputPos - cfg.stepSamples * (cfg.borderSteps : ℤ) +
              cfg.trialSamples }) := by
    simp only [processTrial, hinit, Bool.false_eq_true, if_false, if_neg h2, if_neg h3]
  refine ⟨by rw [hkey], ?_⟩
  intro i hi c hc
  constructor
  · intro s hs
    simp only [hkey]
    rw [chanLoop_wrap_melTrialOut melVal mfccVal cfg st.inputPos hmel hB htot
      cfg.channels _ i s c]
    rw [if_pos ⟨hi, hc⟩, if_pos hs]
  · intro k hk
    simp only [hkey]
    rw [chanLoop_wrap_melTrialOut melVal mfccVal cfg st.inputPos hmel hB htot
      cfg.channels _ i (2 * cfg.borderSteps + k) c]
    rw [if_pos ⟨hi, hc⟩, if_neg (by omega : ¬ 2 * cfg.borderSteps + k < 2 * cfg.borderSteps),
      if_pos (by omega : 2 * cfg.borderSteps + k < cfg.totalSteps)]
    have hcast : ((2 * cfg.borderSteps + k - 2 * cfg.borderSteps : ℕ) : ℤ) = (k : ℤ) := by
      omega
    rw [hcast]

/-- The border-wrap contract evaluated at the concrete second-trial state:
border step 0 receives old step 2's value and the first fresh step is
computed at input position 320. -/
theorem processTrial_wrapBorder_spec_witness :
    (processTrial melValC2 zeroVal idInit cfgC2 stC2).1 = true ∧
    (processTrial melValC2 zeroVal idInit cfgC2 stC2).2.2.melTrialOut 0 0 0 =
      stC2.melTrialOut 0 (cfgC2.trialSteps + 0) 0 ∧
    (processTrial melValC2 zeroVal idInit cfgC2 stC2).2.2.melTrialOut
        0 (2 * cfgC2.borderSteps + 0) 0 =
      melValC2 0 (stC2.inputPos + (0 : ℤ) * cfgC2.stepSamples) 0 := by
  have h := processTrial_wrapBorder_spec melValC2 zeroVal idInit cfgC2 stC2
    rfl (by decide) (by decide) (by decide) (by decide) (by decide)
  exact ⟨h.1, (h.2 0 (by decide) 0 (by decide)).1 0 (by decide),
    (h.2 0 (by decide) 0 (by decide)).2 0 (by decide)⟩

/-- The insufficient-input contract evaluated at the drained state. -/
theorem processTrial_insufficientInput_spec_witness :
    (processTrial zeroVal zeroVal idInit cfgC3 stC3).1 = false ∧
    (processTrial zeroVal zeroVal idInit cfgC3 stC3).2.2.melTrialOut = stC3.melTrialOut ∧
    (processTrial zeroVal zeroVal idInit cfgC3 stC3).2.2.mfccTrialOut = stC3.mfccTrialOut ∧
    (processTrial zeroVal zeroVal idInit cfgC3 stC3).2.2.inputPos = stC3.inputPos :=
  processTrial_insufficientInput_spec zeroVal zeroVal idInit cfgC3 stC3
    (by decide) (by decide)

end audio

namespace trm

/-- C8: with beta = 0.6 (out of range) or with beta = 0.25 and gamma = 2
(out of range) the designer's validation takes the silent early return with
zero coefficients, and `Init` then completes normally with `nTaps = -1`
(its coefficient loop runs zero times): no fatal configuration error is
raised and initialization is not aborted. -/
theorem maximallyFlat_invalid_silent_eval :
    maximallyFlatCheck (3 / 5) (1 / 10) = MFCheck.betaOutOfRange ∧
    maximallyFlatCheck (1 / 4) 2 = MFCheck.gammaOutOfRange ∧
    firInitNTaps (3 / 5) (1 / 10) 37 = -1 ∧ firInitNTaps (1 / 4) 2 37 = -1 := by
  refine ⟨?_, ?_, ?_, ?_⟩ <;> norm_num [maximallyFlatCheck, firInitNTaps]

/-- C9: for any modulus at least 1 and pointer in [0, modulus-1], both
`Increment` and `Decrement` stay in [0, modulus-1] and they are mutual
inverses. -/
theorem increment_decrement_inverse (ptr modulus : ℤ)
    (hm : 1 ≤ modulus) (h0 : 0 ≤ ptr) (h1 : ptr < modulus) :
    (0 ≤ Increment ptr modulus ∧ Increment ptr modulus < modulus) ∧
    (0 ≤ Decrement ptr modulus ∧ Decrement ptr modulus < modulus) ∧
    Decrement (Increment ptr modulus) modulus = ptr ∧
    Increment (Decrement ptr modulus) modulus = ptr := by
  unfold Increment Decrement
  split_ifs <;> omega

/-- The pointer laws evaluated at pointer 1 with modulus 3. -/
theorem increment_decrement_inverse_witness :
    (0 ≤ Increment 1 3 ∧ Increment 1 3 < 3) ∧
    (0 ≤ Decrement 1 3 ∧ Decrement 1 3 < 3) ∧
    Decrement (Increment 1 3) 3 = 1 ∧
    Increment (Decrement 1 3) 3 = 1 :=
  increment_decrement_inverse 1 3 (by decide) (by decide) (by decide)

/-- The final pointer of the tap loop is the `Increment` iterate of the
starting pointer. -/
theorem firLoop_ptr (data coef : ℤ → ℝ) (nTaps : ℤ) :
    ∀ (n : ℕ) (p : ℤ) (i : ℕ) (acc : ℝ),
      (firLoop data coef nTaps n p i acc).2 =
        (fun q => Increment q nTaps)^[n] p := by
  intro n
  induction n with
  | zero => intro p i acc; rfl
  | succ n ih =>
    intro p i acc
    rw [firLoop, ih, Function.iterate_succ_apply]

/-- `Increment` acts as +1 modulo `nTaps` on in-range pointers. -/
theorem increment_eq_emod (nTaps p : ℤ) (h0 : 0 ≤ p) (h1 : p < nTaps) :
    Increment p nTaps = (p + 1) % nTaps := by
  unfold Increment
  split_ifs with h
  · have : p + 1 = nTaps := by omega
    rw [this, Int.emod_self]
  · rw [Int.emod_eq_of_lt (by omega) (by omega)]

/-- Iterating `Increment` n times from an in-range pointer lands on
`(p + n) mod nTaps`. -/
theorem increment_iterate (nTaps : ℤ) (hn : 1 ≤ nTaps) :
    ∀ (n : ℕ) (p : ℤ), 0 ≤ p → p < nTaps →
      (fun q => Increment q nTaps)^[n] p = (p + n) % nTaps := by
  intro n
  induction n with
  | zero =>
    intro p h0 h1
    simp [Int.emod_eq_of_lt h0 h1]
  | succ n ih =>
    intro p h0 h1
    rw [Function.iterate_succ_apply]
    have hinc : Increment p nTaps = (p + 1) % nTaps := increment_eq_emod nTaps p h0 h1
    rw [hinc, ih _ (Int.emod_nonneg _ (by omega)) (Int.emod_lt_of_pos _ (by omega)),
      Int.emod_add_emod]
    congr 1
    push_cast
    ring

/-- After `NTaps` increments an in-range pointer returns to its start. -/
theorem increment_iterate_full (nTaps p : ℤ) (hn : 1 ≤ nTaps)
    (h0 : 0 ≤ p) (h1 : p < nTaps) :
    (fun q => Increment q nTaps)^[nTaps.toNat] p = p := by
  rw [increment_iterate nTaps hn _ p h0 h1,
    Int.toNat_of_nonneg (by omega : (0 : ℤ) ≤ nTaps)]
  rw [show p + nTaps = p + nTaps * 1 by ring, Int.add_mul_emod_self_left,
    Int.emod_eq_of_lt h0 h1]

/-- C10: for a filter state with `NTaps ≥ 1` and in-range pointer, both
values of `needOutput` have the same effect on the state: the input is
written at `Data[Ptr]`, every other data entry is unchanged, and the
pointer becomes `Decrement(Ptr, NTaps)` (the tap loop's `NTaps` increments
return it to its start before the final decrement); with `needOutput`
false the returned value is 0. -/
theorem firFilter_state_effect (ff : FirFilter) (input : ℝ) (b : Bool)
    (hn : 1 ≤ ff.NTaps) (h0 : 0 ≤ ff.Ptr) (h1 : ff.Ptr < ff.NTaps) :
    (ff.Filter input b).2.Data ff.Ptr = input ∧
    (∀ j, j ≠ ff.Ptr → (ff.Filter input b).2.Data j = ff.Data j) ∧
    (ff.Filter input b).2.Ptr = Decrement ff.Ptr ff.NTaps ∧
    (ff.Filter input b).2.NTaps = ff.NTaps ∧
    (ff.Filter input b).2.Coef = ff.Coef ∧
    (ff.Filter input true).2 = (ff.Filter input false).2 ∧
    (ff.Filter input false).1 = 0 := by
  have hkey : ∀ (data : ℤ → ℝ),
      (firLoop data ff.Coef ff.NTaps ff.NTaps.toNat ff.Ptr 0 0).2 = ff.Ptr := by
    intro data
    rw [firLoop_ptr, increment_iterate_full ff.NTaps ff.Ptr hn h0 h1]
  cases b <;>
    simp [FirFilter.Filter, hkey, fun j (h : j ≠ ff.Ptr) => if_neg h]
  · intro j hj
    exact fun h => absurd h hj
  · intro j hj
    exact fun h => absurd h hj

/-- The filter-step frame property evaluated at a concrete filter state:
three taps, pointer 1, zero buffers, input 5. -/
theorem firFilter_state_effect_witness :
    ((FirFilter.mk 1 3 (fun _ => 0) (fun _ => 0)).Filter 5 true).2.Data 1 = 5 ∧
    (∀ j, j ≠ (1 : ℤ) →
      ((FirFilter.mk 1 3 (fun _ => 0) (fun _ => 0)).Filter 5 true).2.Data j = 0) ∧
    ((FirFilter.mk 1 3 (fun _ => 0) (fun _ => 0)).Filter 5 true).2.Ptr = Decrement 1 3 ∧
    ((FirFilter.mk 1 3 (fun _ => 0) (fun _ => 0)).Filter 5 true).2.NTaps = 3 ∧
    ((FirFilter.mk 1 3 (fun _ => 0) (fun _ => 0)).Filter 5 true).2.Coef = (fun _ => 0) ∧
    ((FirFilter.mk 1 3 (fun _ => 0) (fun _ => 0)).Filter 5 true).2 =
      ((FirFilter.mk 1 3 (fun _ => 0) (fun _ => 0)).Filter 5 false).2 ∧
    ((FirFilter.mk 1 3 (fun _ => 0) (fun _ => 0)).Filter 5 false).1 = 0 :=
  firFilter_state_effect (FirFilter.mk 1 3 (fun _ => 0) (fun _ => 0)) 5 true
    (by decide) (by decide) (by decide)

end trm
